import Mathlib

/-!
# Verification of `http-cache-semantics` (rusty-http-cache-semantics)

A shallow embedding of `src/lib.rs` of the `http-cache-semantics` crate.

Modelling conventions:
* Byte strings (Rust `&str` / `str`) are `List Char`; header values are assumed
  to be valid visible text (the code skips values failing `HeaderValue::to_str`,
  which our representation cannot express, so `to_str` is the identity here).
* `SystemTime` is a natural number of seconds since the Unix epoch, and
  `Duration` a natural number of seconds; the library only ever compares,
  adds and (saturating- or panicking-)subtracts these, and all of its own
  arithmetic is in whole seconds.
* The external `time` crate's RFC 2822 parsing and formatting, and the `f32`
  heuristic-freshness multiplication, are abstracted as functions supplied by
  a `TimeModel` / `CacheOptions`; the theorems quantify over them.
* Rust's panicking `Duration` subtraction is modelled by an `Option`-valued
  subtraction, so functions that can reach it return `Option` results and a
  `none` result models a panic.
* `http::HeaderMap` is an association list whose keys are the lowercase header
  names (`HeaderName` normalises to lowercase on construction); multi-valued
  headers keep one entry per value, `get` returns the first value, `insert`
  replaces all values of a key, `append` adds one.
-/

namespace HttpCacheSemantics

abbrev Str := List Char

/-- Unicode `White_Space` code points, as used by Rust's `str::trim`. -/
def rustIsWs (c : Char) : Bool :=
  c.toNat = 0x09 || c.toNat = 0x0A || c.toNat = 0x0B || c.toNat = 0x0C ||
  c.toNat = 0x0D || c.toNat = 0x20 || c.toNat = 0x85 || c.toNat = 0xA0 ||
  c.toNat = 0x1680 || (0x2000 ≤ c.toNat && c.toNat ≤ 0x200A) ||
  c.toNat = 0x2028 || c.toNat = 0x2029 || c.toNat = 0x202F ||
  c.toNat = 0x205F || c.toNat = 0x3000

/-- `str::trim_start`. -/
def trimStart (s : Str) : Str := s.dropWhile rustIsWs

/-- `str::trim_end`. -/
def trimEnd (s : Str) : Str := (s.reverse.dropWhile rustIsWs).reverse

/-- `str::trim`. -/
def rustTrim (s : Str) : Str := trimEnd (trimStart s)

/-- `str::trim_matches('"')`: strips every leading and trailing `"`. -/
def trimQuotes (s : Str) : Str :=
  ((s.dropWhile (· = '"')).reverse.dropWhile (· = '"')).reverse

/-- `str::split(sep)`, auxiliary: returns the first piece and remaining pieces. -/
def splitCharAux (sep : Char) : Str → Str × List Str
  | [] => ([], [])
  | c :: rest =>
    let r := splitCharAux sep rest
    if c = sep then ([], r.1 :: r.2) else (c :: r.1, r.2)

/-- `str::split(sep)`: splitting the empty string yields one empty piece. -/
def splitChar (sep : Char) (s : Str) : List Str :=
  (splitCharAux sep s).1 :: (splitCharAux sep s).2

/-- `str::splitn(2, sep)`: the piece before the first `sep`, and (when `sep`
occurs) everything after it. -/
def splitFirst (sep : Char) : Str → Str × Option Str
  | [] => ([], none)
  | c :: rest =>
    if c = sep then ([], some rest)
    else
      let r := splitFirst sep rest
      (c :: r.1, r.2)

/-- `str::starts_with` for a string pattern. -/
def startsWith : Str → Str → Bool
  | _, [] => true
  | [], _ :: _ => false
  | c :: s, p :: ps => c = p && startsWith s ps

/-- `str::contains` for a string pattern (substring search). -/
def containsSub (s pat : Str) : Bool :=
  startsWith s pat ||
    match s with
    | [] => false
    | _ :: rest => containsSub rest pat

/-- `str::trim_start_matches` for a string pattern: strips every leading
occurrence of the pattern. -/
def trimStartMatchesStr (s pat : Str) : Str :=
  if h : pat ≠ [] ∧ startsWith s pat then
    have : (s.drop pat.length).length < s.length ∨ s = [] := by
      rcases s with _ | ⟨c, rest⟩
      · right; rfl
      · left
        have : 0 < pat.length := List.length_pos.mpr h.1
        simp only [List.length_drop, List.length_cons]
        omega
    match s with
    | [] => []
    | c :: rest => trimStartMatchesStr ((c :: rest).drop pat.length) pat
  else s
termination_by s.length
decreasing_by
  simp only [List.length_drop, List.length_cons]
  have : 0 < pat.length := List.length_pos.mpr h.1
  omega

/-- `char::is_ascii_alphanumeric` (on bytes of an ASCII string this agrees with
the byte-wise check in the source; a non-ASCII char encodes to non-alphanumeric
bytes and is not ASCII-alphanumeric as a char, so the two views agree). -/
def isAsciiAlphanum (c : Char) : Bool :=
  ('0' ≤ c && c ≤ '9') || ('a' ≤ c && c ≤ 'z') || ('A' ≤ c && c ≤ 'Z')

/-- `u8::to_ascii_lowercase` applied char-wise (`str::to_ascii_lowercase`). -/
def asciiLowerChar (c : Char) : Char :=
  if 'A' ≤ c && c ≤ 'Z' then Char.ofNat (c.toNat + 32) else c

def asciiLower (s : Str) : Str := s.map asciiLowerChar

/-- `u64::from_str` / `str::parse::<u64>()`: optional leading `+`, at least one
ASCII digit, nothing else, and the value must fit in 64 bits. -/
def parseU64 (s : Str) : Option Nat :=
  let digits := match s with
    | '+' :: rest => rest
    | other => other
  if digits ≠ [] && digits.all (fun c => '0' ≤ c && c ≤ '9') then
    let v := digits.foldl (fun acc c => acc * 10 + (c.toNat - '0'.toNat)) 0
    if v < 18446744073709551616 then some v else none
  else none

/-- `u64::to_string`. -/
def natToStr (n : Nat) : Str := Nat.toDigits 10 n

/-- `join` from the source: concatenate with `", "` separators, skipping
nothing (an empty first part yields a leading separator-free empty prefix,
exactly as the `String`-building loop in the source does). -/
def rustJoin (parts : List Str) : Str :=
  parts.foldl (fun out part =>
    if out ≠ [] then out ++ [',', ' '] ++ part else out ++ part) []

section CacheControlParsing

/-- `CacheControl = HashMap<Box<str>, Option<Box<str>>>`, modelled as an
association list in insertion order with unique keys. -/
abbrev CacheControl := List (Str × Option Str)

def ccLookup (cc : CacheControl) (k : Str) : Option (Option Str) :=
  (cc.find? (fun e => e.1 = k)).map (·.2)

def ccContainsKey (cc : CacheControl) (k : Str) : Bool :=
  (ccLookup cc k).isSome

/-- `HashMap::insert`: replace the value if the key is present, else add. -/
def ccSet (cc : CacheControl) (k : Str) (v : Option Str) : CacheControl :=
  if ccContainsKey cc k then
    cc.map (fun e => if e.1 = k then (e.1, v) else e)
  else cc ++ [(k, v)]

/-- `HashMap::remove` (the returned value is unused by the source). -/
def ccRemove (cc : CacheControl) (k : Str) : CacheControl :=
  cc.filter (fun e => ¬ e.1 = k)

/-- One iteration of the `for part in h.split(',')` loop body of
`parse_cache_control`, acting on the accumulated `(cc, is_valid)` state. -/
def parseCCStep (st : CacheControl × Bool) (part : Str) : CacheControl × Bool :=
  if rustTrim part = [] then st
  else
    let kv := splitFirst '=' part
    let k := rustTrim kv.1
    if k = [] then st
    else
      let v := kv.2.map rustTrim
      match ccLookup st.1 k with
      | some v0 => (st.1, st.2 && decide (v0 = v))
      | none => (st.1 ++ [(k, v.map trimQuotes)], st.2)

/-- The comma-separated parts of all header values, in order (the two nested
loops of `parse_cache_control` visit exactly this sequence). -/
def ccParts (headers : List Str) : List Str :=
  headers.flatMap (splitChar ',')

/-- The body of `parse_cache_control` before the final validity fix-up:
the built map together with the `is_valid` flag. -/
def parseCacheControlRaw (headers : List Str) : CacheControl × Bool :=
  (ccParts headers).foldl parseCCStep ([], true)

/-- `parse_cache_control`. -/
def parseCacheControl (headers : List Str) : CacheControl :=
  let st := parseCacheControlRaw headers
  if st.2 then st.1 else ccSet st.1 "must-revalidate".toList none

/-- The value-quoting test of `format_cache_control`. -/
def needsQuote (v : Str) : Bool :=
  v.isEmpty || v.any (fun b => ¬ isAsciiAlphanum b)

/-- The `key[=value]` text one entry contributes to `format_cache_control`. -/
def ccEntryText (e : Str × Option Str) : Str :=
  e.1 ++ match e.2 with
    | none => []
    | some v => '=' :: (if needsQuote v then '"' :: v ++ ['"'] else v)

/-- `format_cache_control`. -/
def formatCacheControl (cc : CacheControl) : Str :=
  cc.foldl (fun out e =>
    (if out ≠ [] then out ++ [',', ' '] else out) ++ ccEntryText e) []

end CacheControlParsing

section HeaderMaps

/-- `http::HeaderMap`: keys are lowercase header names, one entry per value. -/
abbrev HeaderMap := List (Str × Str)

/-- Shorthand for header-name literals. -/
def hn (s : String) : Str := s.toList

/-- `HeaderMap::get_all`. -/
def hmGetAll (hm : HeaderMap) (k : Str) : List Str :=
  (hm.filter (fun e => e.1 = k)).map (·.2)

/-- `HeaderMap::get` (first value). -/
def hmGet (hm : HeaderMap) (k : Str) : Option Str :=
  (hm.find? (fun e => e.1 = k)).map (·.2)

/-- `GetHeaderStr::get_str` (`to_str` is the identity in this model). -/
def hmGetStr (hm : HeaderMap) (k : Str) : Option Str := hmGet hm k

/-- `HeaderMap::contains_key`. -/
def hmContainsKey (hm : HeaderMap) (k : Str) : Bool := (hmGet hm k).isSome

/-- `HeaderMap::insert`: drop all values of the key, add the new one. -/
def hmInsert (hm : HeaderMap) (k v : Str) : HeaderMap :=
  hm.filter (fun e => ¬ e.1 = k) ++ [(k, v)]

/-- `HeaderMap::append`. -/
def hmAppend (hm : HeaderMap) (k v : Str) : HeaderMap := hm ++ [(k, v)]

/-- `HeaderMap::remove`. -/
def hmRemove (hm : HeaderMap) (k : Str) : HeaderMap :=
  hm.filter (fun e => ¬ e.1 = k)

/-- `get_all_comma` from the source: all values, comma-split and trimmed. -/
def getAllComma (vals : List Str) : List Str :=
  vals.flatMap (fun s => (splitChar ',' s).map rustTrim)

end HeaderMaps

section DataModel

inductive Method where
  | GET | HEAD | POST
  | OTHER (name : Str)
deriving DecidableEq, Repr

/-- `CacheOptions`. The `f32` field `cache_heuristic` is abstracted as the
whole function `d ↦ (d as f64 * cache_heuristic) as u64` applied to the
`Date − Last-Modified` difference in seconds. -/
structure CacheOptions where
  shared : Bool
  cacheHeuristic : Nat → Nat
  immutableMinTimeToLive : Nat
  ignoreCargoCult : Bool

/-- The behaviour of the external `time` crate, abstracted: RFC 2822 parsing
to a Unix timestamp (`OffsetDateTime::parse(_, &Rfc2822)` composed with
`unix_timestamp()`), and RFC 2822 formatting of an instant. -/
structure TimeModel where
  parseRfc2822 : Str → Option Int
  formatRfc2822 : Nat → Str

/-- `CachePolicy`. -/
structure Policy where
  req : HeaderMap
  res : HeaderMap
  uri : Str
  status : Nat
  method : Method
  opts : CacheOptions
  res_cc : CacheControl
  req_cc : CacheControl
  response_time : Nat

/-- A `RequestLike` value (the `http::request::Parts` instance, whose
`is_same_uri` is URI equality). -/
structure Request where
  uri : Str
  method : Method
  headers : HeaderMap

/-- `http::response::Parts` (status and headers; the body is unit). -/
structure ResponseParts where
  status : Nat
  headers : HeaderMap
deriving DecidableEq

/-- `http::request::Parts` as returned by the policy functions. -/
structure RequestParts where
  method : Method
  uri : Str
  headers : HeaderMap
deriving DecidableEq

/-- `BeforeRequest`. -/
inductive BeforeRequest where
  | Fresh (parts : ResponseParts)
  | Stale (request : RequestParts) (isMatch : Bool)
deriving DecidableEq

/-- `AfterResponse` (the fresh policy is kept alongside the response parts). -/
inductive AfterResponse where
  | NotModified (policy : Policy) (parts : ResponseParts)
  | Modified (policy : Policy) (parts : ResponseParts)

-- rfc7231 6.1
def STATUS_CODE_CACHEABLE_BY_DEFAULT : List Nat :=
  [200, 203, 204, 206, 300, 301, 308, 404, 405, 410, 414, 501]

-- This implementation does not understand partial responses (206)
def UNDERSTOOD_STATUSES : List Nat :=
  [200, 203, 204, 300, 301, 302, 303, 307, 308, 404, 405, 410, 414, 501]

def HOP_BY_HOP_HEADERS : List Str :=
  [hn "date", hn "connection", hn "keep-alive", hn "proxy-authenticate",
   hn "proxy-authorization", hn "te", hn "trailer", hn "transfer-encoding",
   hn "upgrade"]

def EXCLUDED_FROM_REVALIDATION_UPDATE : List Str :=
  [hn "content-length", hn "content-encoding", hn "transfer-encoding",
   hn "content-range"]

end DataModel

section Construction

/-- `CachePolicy::from_details`. -/
def fromDetails (uri : Str) (method : Method) (status : Nat)
    (req res : HeaderMap) (response_time : Nat) (opts : CacheOptions) : Policy :=
  let res_cc := parseCacheControl (hmGetAll res (hn "cache-control"))
  let req_cc := parseCacheControl (hmGetAll req (hn "cache-control"))
  let (res_cc, res) :=
    if opts.ignoreCargoCult && ccContainsKey res_cc (hn "pre-check")
        && ccContainsKey res_cc (hn "post-check") then
      let res_cc := ccRemove (ccRemove (ccRemove (ccRemove (ccRemove res_cc
        (hn "pre-check")) (hn "post-check")) (hn "no-cache")) (hn "no-store"))
        (hn "must-revalidate")
      let res := hmInsert res (hn "cache-control") (formatCacheControl res_cc)
      let res := hmRemove (hmRemove res (hn "expires")) (hn "pragma")
      (res_cc, res)
    else (res_cc, res)
  let res_cc :=
    if ¬ hmContainsKey res (hn "cache-control")
        && (hmGetStr res (hn "pragma")).elim false (fun p => containsSub p (hn "no-cache")) then
      ccSet res_cc (hn "no-cache") none
    else res_cc
  { req, res, uri, status, method, opts, res_cc, req_cc, response_time }

end Construction

section Storability

/-- `CachePolicy::has_explicit_expiration`. -/
def hasExplicitExpiration (p : Policy) : Bool :=
  (p.opts.shared && ccContainsKey p.res_cc (hn "s-maxage"))
    || ccContainsKey p.res_cc (hn "max-age")
    || hmContainsKey p.res (hn "expires")

/-- `CachePolicy::allows_storing_authenticated`. -/
def allowsStoringAuthenticated (p : Policy) : Bool :=
  ccContainsKey p.res_cc (hn "must-revalidate")
    || ccContainsKey p.res_cc (hn "public")
    || ccContainsKey p.res_cc (hn "s-maxage")

/-- `CachePolicy::is_storable`. -/
def isStorable (p : Policy) : Bool :=
  ¬ ccContainsKey p.req_cc (hn "no-store") &&
    (p.method = Method.GET || p.method = Method.HEAD ||
      (p.method = Method.POST && hasExplicitExpiration p)) &&
    UNDERSTOOD_STATUSES.contains p.status &&
    ¬ ccContainsKey p.res_cc (hn "no-store") &&
    (¬ p.opts.shared || ¬ ccContainsKey p.res_cc (hn "private")) &&
    (¬ p.opts.shared ||
      ¬ hmContainsKey p.req (hn "authorization") ||
      allowsStoringAuthenticated p) &&
    (hmContainsKey p.res (hn "expires") ||
      ccContainsKey p.res_cc (hn "max-age") ||
      (p.opts.shared && ccContainsKey p.res_cc (hn "s-maxage")) ||
      ccContainsKey p.res_cc (hn "public") ||
      STATUS_CODE_CACHEABLE_BY_DEFAULT.contains p.status)

end Storability

section Freshness

/-- `i64 as u64` conversion (used on `unix_timestamp()` in `raw_server_date`). -/
def i64AsU64 (t : Int) : Nat := (t % 18446744073709551616).toNat

/-- `CachePolicy::raw_server_date`: the parsed `Date` header, else
`response_time` (`SystemTime::UNIX_EPOCH.checked_add` cannot overflow in the
unbounded model). -/
def rawServerDate (tm : TimeModel) (p : Policy) : Nat :=
  (((hmGetStr p.res (hn "date")).bind tm.parseRfc2822).map i64AsU64).getD p.response_time

/-- `CachePolicy::age_header_value`. -/
def ageHeaderValue (p : Policy) : Nat :=
  (((hmGetStr p.res (hn "age")).bind parseU64).getD 0)

/-- `CachePolicy::age`: `duration_since` errs (adds nothing) when
`now < response_time`, which truncated subtraction models exactly. -/
def age (p : Policy) (now : Nat) : Nat :=
  ageHeaderValue p + (now - p.response_time)

/-- `OffsetDateTime::unix_timestamp().max(0) as u64` (used for `Expires` and
`Last-Modified` instants). -/
def clampedUnix (t : Int) : Nat := (max t 0).toNat

/-- `CachePolicy::max_age`. -/
def maxAge (tm : TimeModel) (p : Policy) : Nat :=
  if ¬ isStorable p || ccContainsKey p.res_cc (hn "no-cache") then 0
  else if p.opts.shared && (hmContainsKey p.res (hn "set-cookie")
      && ¬ ccContainsKey p.res_cc (hn "public")
      && ¬ ccContainsKey p.res_cc (hn "immutable")) then 0
  else if (hmGetStr p.res (hn "vary")).map rustTrim = some "*".toList then 0
  else if p.opts.shared && ccContainsKey p.res_cc (hn "proxy-revalidate") then 0
  else if p.opts.shared && (ccLookup p.res_cc (hn "s-maxage")).bind id ≠ none then
    (((ccLookup p.res_cc (hn "s-maxage")).bind id).bind parseU64).getD 0
  else if (ccLookup p.res_cc (hn "max-age")).bind id ≠ none then
    (((ccLookup p.res_cc (hn "max-age")).bind id).bind parseU64).getD 0
  else
    let defaultMinTtl :=
      if ccContainsKey p.res_cc (hn "immutable") then p.opts.immutableMinTimeToLive else 0
    let serverDate := rawServerDate tm p
    match hmGetStr p.res (hn "expires") with
    | some expires =>
      match tm.parseRfc2822 expires with
      | none => 0
      | some t => max defaultMinTtl (clampedUnix t - serverDate)
    | none =>
      match (hmGetStr p.res (hn "last-modified")).bind tm.parseRfc2822 with
      | some t =>
        if clampedUnix t ≤ serverDate then
          max defaultMinTtl (p.opts.cacheHeuristic (serverDate - clampedUnix t))
        else defaultMinTtl
      | none => defaultMinTtl

/-- `CachePolicy::time_to_live` (`checked_sub(..).unwrap_or_default()`). -/
def timeToLive (tm : TimeModel) (p : Policy) (now : Nat) : Nat :=
  maxAge tm p - age p now

/-- `CachePolicy::is_stale`. -/
def isStale (tm : TimeModel) (p : Policy) (now : Nat) : Bool :=
  maxAge tm p ≤ age p now

end Freshness

section BeforeRequest

/-- `CachePolicy::vary_matches`. -/
def varyMatches (p : Policy) (req : Request) : Bool :=
  (getAllComma (hmGetAll p.res (hn "vary"))).all (fun name =>
    if name = "*".toList then false
    else
      let name := asciiLower (rustTrim name)
      hmGet req.headers name = hmGet p.req name)

/-- `CachePolicy::request_matches`: `(exact_match, may_revalidate)`. -/
def requestMatches (p : Policy) (req : Request) : Bool × Bool :=
  let m := req.uri = p.uri &&
    hmGet p.req (hn "host") = hmGet req.headers (hn "host") &&
    varyMatches p req
  let exactMatch := m && p.method = req.method
  (exactMatch, exactMatch || req.method = Method.HEAD)

/-- Rust's panicking `Duration` subtraction: `none` models the panic. -/
def durSub (a b : Nat) : Option Nat := if b ≤ a then some (a - b) else none

/-- `CachePolicy::satisfies_without_revalidation`; `none` models reaching a
panicking `Duration` subtraction. -/
def satisfiesWithoutRevalidation (tm : TimeModel) (p : Policy)
    (reqHeaders : HeaderMap) (now : Nat) : Option Bool :=
  let req_cc := parseCacheControl (hmGetAll reqHeaders (hn "cache-control"))
  if ccContainsKey req_cc (hn "no-cache")
      || (hmGetStr reqHeaders (hn "pragma")).elim false
          (fun v => containsSub v (hn "no-cache")) then
    some false
  else if ((ccLookup req_cc (hn "max-age")).bind id).bind parseU64
        |>.elim false (fun m => age p now > m) then
    some false
  else if ((ccLookup req_cc (hn "min-fresh")).bind id).bind parseU64
        |>.elim false (fun m => timeToLive tm p now < m) then
    some false
  else if isStale tm p now then
    -- `allows_stale` with Rust's short-circuiting `&&`: the panicking
    -- subtraction is evaluated only when the earlier conjuncts hold and
    -- `max-stale` parses to an integer.
    let maxStale := ccLookup req_cc (hn "max-stale")
    let allowsStale : Option Bool :=
      if ¬ ccContainsKey p.res_cc (hn "must-revalidate") && maxStale.isSome then
        match (maxStale.bind id).bind parseU64 with
        | none => some true
        | some v => (durSub (age p now) (maxAge tm p)).map (fun d => v > d)
      else some false
    allowsStale.map (fun b => b)
  else some true

/-- `CachePolicy::copy_without_hop_by_hop_headers`. -/
def copyWithoutHopByHop (inHeaders : HeaderMap) : HeaderMap :=
  let headers := (inHeaders.filter
      (fun e => ¬ HOP_BY_HOP_HEADERS.contains e.1)).foldl
    (fun acc e => hmInsert acc e.1 e.2) []
  let headers := (getAllComma (hmGetAll inHeaders (hn "connection"))).foldl
    (fun acc name => hmRemove acc (asciiLower name)) headers
  let newWarnings := rustJoin ((getAllComma (hmGetAll inHeaders (hn "warning"))).filter
    (fun warning => ¬ startsWith (trimStart warning) "1".toList))
  if newWarnings = [] then hmRemove headers (hn "warning")
  else hmInsert headers (hn "warning") newWarnings

/-- `CachePolicy::cached_response`. -/
def cachedResponse (tm : TimeModel) (p : Policy) (now : Nat) : ResponseParts :=
  let headers := copyWithoutHopByHop p.res
  let a := age p now
  let day := 3600 * 24
  let headers :=
    if a > day && ¬ hasExplicitExpiration p && maxAge tm p > day then
      hmAppend headers (hn "warning") "113 - \"rfc7234 5.5.4\"".toList
    else headers
  let headers := hmInsert headers (hn "age") (natToStr a)
  let headers := hmInsert headers (hn "date") (tm.formatRfc2822 now)
  { status := p.status, headers }

/-- `CachePolicy::request_from_headers`. -/
def requestFromHeaders (p : Policy) (headers : HeaderMap) : RequestParts :=
  { method := p.method, uri := p.uri, headers }

/-- `CachePolicy::revalidation_request`. -/
def revalidationRequest (p : Policy) (incomingReq : Request) : RequestParts :=
  let headers := copyWithoutHopByHop incomingReq.headers
  -- This implementation does not understand range requests
  let headers := hmRemove headers (hn "if-range")
  if ¬ isStorable p then
    -- not for the same resource, or wasn't allowed to be cached anyway
    requestFromHeaders p
      (hmRemove (hmRemove headers (hn "if-none-match")) (hn "if-modified-since"))
  else
    let headers :=
      match hmGetStr p.res (hn "etag") with
      | some etag =>
        hmInsert headers (hn "if-none-match")
          (rustJoin (getAllComma (hmGetAll headers (hn "if-none-match")) ++ [etag]))
      | none => headers
    let forbidsWeakValidators := ¬ p.method = Method.GET
      || hmContainsKey headers (hn "accept-ranges")
      || hmContainsKey headers (hn "if-match")
      || hmContainsKey headers (hn "if-unmodified-since")
    let headers :=
      if forbidsWeakValidators then
        let headers := hmRemove headers (hn "if-modified-since")
        let etags := rustJoin ((getAllComma (hmGetAll headers (hn "if-none-match"))).filter
          (fun etag => ¬ startsWith (trimStart etag) "W/".toList))
        if etags = [] then hmRemove headers (hn "if-none-match")
        else hmInsert headers (hn "if-none-match") etags
      else if ¬ hmContainsKey headers (hn "if-modified-since") then
        match hmGetStr p.res (hn "last-modified") with
        | some lastModified => hmInsert headers (hn "if-modified-since") lastModified
        | none => headers
      else headers
    requestFromHeaders p headers

/-- `CachePolicy::before_request`; `none` models a panic (reachable only
through `satisfies_without_revalidation`, and proved unreachable below). -/
def beforeRequest (tm : TimeModel) (p : Policy) (req : Request) (now : Nat) :
    Option BeforeRequest :=
  let reqHeaders := req.headers
  let mm := requestMatches p req
  let staleOutcome : BeforeRequest :=
    if mm.2 then .Stale (revalidationRequest p req) mm.1
    else .Stale (requestFromHeaders p reqHeaders) mm.1
  if mm.1 then
    (satisfiesWithoutRevalidation tm p reqHeaders now).map (fun sat =>
      if sat then .Fresh (cachedResponse tm p now) else staleOutcome)
  else some staleOutcome

end BeforeRequest

section AfterResponseMerge

/-- The validator-matching logic of `CachePolicy::after_response`. Note that
the source computes `old_last_modified` from `response_headers` (the new
response), not from `self.res`; this embedding reproduces that. -/
def afterResponseMatches (p : Policy) (newStatus : Nat)
    (responseHeaders : HeaderMap) : Bool :=
  let oldEtag := (hmGetStr p.res (hn "etag")).map rustTrim
  let oldLastModified := (hmGetStr responseHeaders (hn "last-modified")).map rustTrim
  let newEtag := (hmGetStr responseHeaders (hn "etag")).map rustTrim
  let newLastModified := (hmGetStr responseHeaders (hn "last-modified")).map rustTrim
  if ¬ newStatus = 304 then false
  else if newEtag.elim false (fun etag => ¬ startsWith etag "W/".toList) then
    oldEtag.map (fun e => trimStartMatchesStr e "W/".toList) = newEtag
  else if oldEtag.isSome && newEtag.isSome then
    oldEtag.map (fun e => trimStartMatchesStr e "W/".toList) =
      newEtag.map (fun e => trimStartMatchesStr e "W/".toList)
  else if oldLastModified.isSome then
    oldLastModified = newLastModified
  else
    oldEtag = none && newEtag = none && oldLastModified = none
      && newLastModified = none

/-- `CachePolicy::after_response`. -/
def afterResponse (tm : TimeModel) (p : Policy) (request : Request)
    (respStatus : Nat) (responseHeaders : HeaderMap) (responseTime : Nat) :
    AfterResponse :=
  let m := afterResponseMatches p respStatus responseHeaders
  let merged :=
    if m then
      (p.status, p.res.foldl (fun acc e =>
        match hmGet responseHeaders e.1 with
        | some newValue =>
          if ¬ EXCLUDED_FROM_REVALIDATION_UPDATE.contains e.1 then
            hmInsert acc e.1 newValue
          else hmInsert acc e.1 e.2
        | none => hmInsert acc e.1 e.2) [])
    else (respStatus, responseHeaders)
  let newPolicy := fromDetails request.uri request.method merged.1
    request.headers merged.2 responseTime p.opts
  let newResponse := cachedResponse tm newPolicy responseTime
  if m && respStatus = 304 then .NotModified newPolicy newResponse
  else .Modified newPolicy newResponse

end AfterResponseMerge

section Fixtures

/-- A concrete `TimeModel` for witnesses (any model works for the theorems,
which quantify over it). -/
def tmEx : TimeModel :=
  { parseRfc2822 := fun _ => none, formatRfc2822 := fun _ => [] }

/-- Default options with a concrete stand-in for the 10% heuristic. -/
def optsEx : CacheOptions :=
  { shared := true, cacheHeuristic := fun d => d / 10,
    immutableMinTimeToLive := 86400, ignoreCargoCult := false }

/-- A policy whose request forbids storing (`Cache-Control: no-store`). -/
def pNoStore : Policy :=
  fromDetails "/".toList Method.GET 200
    [(hn "cache-control", "no-store".toList)]
    [(hn "cache-control", "public, max-age=222".toList)] 0 optsEx

/-- A storable GET policy, fresh at time 0 (`max-age=100`). -/
def pFresh : Policy :=
  fromDetails "/".toList Method.GET 200 []
    [(hn "cache-control", "max-age=100".toList)] 0 optsEx

/-- The matching request for `pFresh`. -/
def reqFresh : Request := { uri := "/".toList, method := Method.GET, headers := [] }

/-- A storable POST policy with explicit expiration. -/
def pPostMaxAge : Policy :=
  fromDetails "/".toList Method.POST 200 []
    [(hn "cache-control", "max-age=100".toList)] 0 optsEx

/-- A POST policy whose response has only status-default cacheability. -/
def pPostDefault : Policy :=
  fromDetails "/".toList Method.POST 200 []
    [(hn "cache-control", "public".toList)] 0 optsEx

/-- A GET policy with no explicit expiration (status-default cacheable). -/
def pGetDefault : Policy :=
  fromDetails "/".toList Method.GET 200 [] [] 0 optsEx

/-- A HEAD policy with no explicit expiration. -/
def pHeadDefault : Policy :=
  fromDetails "/".toList Method.HEAD 200 [] [] 0 optsEx

/-- Stored policy with a `Last-Modified` validator and no `ETag`. -/
def pLastModified : Policy :=
  fromDetails "/".toList Method.GET 200 []
    [(hn "cache-control", "max-age=100".toList),
     (hn "last-modified", "Tue, 15 Nov 1994 12:45:26 GMT".toList)] 0 optsEx

/-- Stored policy for a URI `/a` with an `ETag`. -/
def pEtagA : Policy :=
  fromDetails "/a".toList Method.GET 200 []
    [(hn "cache-control", "max-age=100".toList),
     (hn "etag", "\"xyzzy\"".toList)] 0 optsEx

/-- A HEAD request for the different URI `/b`. -/
def reqHeadB : Request := { uri := "/b".toList, method := Method.HEAD, headers := [] }

/-- The request `before_request` hands back for `reqHeadB` against `pEtagA`:
the stored URI and method with the stored validator attached. -/
def revalPartsA : RequestParts :=
  { method := Method.GET, uri := "/a".toList,
    headers := [(hn "if-none-match", "\"xyzzy\"".toList)] }

/-- Response `Cache-Control: No-Store` (capitalised directive). -/
def pNoStoreUpper : Policy :=
  fromDetails "/".toList Method.GET 200 []
    [(hn "cache-control", "No-Store".toList)] 0 optsEx

/-- Response `Cache-Control: no-store` (lowercase directive). -/
def pNoStoreLower : Policy :=
  fromDetails "/".toList Method.GET 200 []
    [(hn "cache-control", "no-store".toList)] 0 optsEx

end Fixtures

section StringLemmas

/-- Both `rustTrim` and `trimQuotes` drop a predicate from both edges;
`dropEdges` is the common shape the lemmas below are proved about. -/
def dropEdges (p : Char → Bool) (s : Str) : Str :=
  ((s.dropWhile p).reverse.dropWhile p).reverse

/-- What `parse_cache_control` guarantees of every stored entry: the key is a
nonempty trimmed string free of `,` and `=`, and any value is free of `,` and
carries no leading or trailing quote (it went through `trim_matches('"')`).
These are exactly the facts that make the formatter's output reparse to the
same entry. -/
def EntryInv (e : Str × Option Str) : Prop :=
  e.1 ≠ [] ∧ rustTrim e.1 = e.1 ∧ ',' ∉ e.1 ∧ '=' ∉ e.1 ∧
    ∀ w, e.2 = some w → ',' ∉ w ∧ trimQuotes w = w

theorem rustTrim_eq_dropEdges (s : Str) : rustTrim s = dropEdges rustIsWs s := rfl

theorem trimQuotes_eq_dropEdges (s : Str) :
    trimQuotes s = dropEdges (fun c => c = '"') s := rfl

theorem head_dropWhile_false (p : Char → Bool) :
    ∀ (l : Str) (c : Char), (l.dropWhile p).head? = some c → p c = false := by
  intro l
  induction l with
  | nil => intro c h; cases h
  | cons a t ih =>
    intro c h
    by_cases hp : p a = true
    · rw [List.dropWhile_cons, if_pos hp] at h
      exact ih c h
    · rw [List.dropWhile_cons, if_neg hp] at h
      have : a = c := by simpa using h
      subst this
      exact Bool.not_eq_true _ |>.mp hp

theorem mem_dropWhile_of_not (p : Char → Bool) {c : Char} :
    ∀ {l : Str}, c ∈ l → p c = false → c ∈ l.dropWhile p := by
  intro l
  induction l with
  | nil => intro h _; cases h
  | cons a t ih =>
    intro h hc
    by_cases hp : p a = true
    · rw [List.dropWhile_cons, if_pos hp]
      rcases List.mem_cons.mp h with rfl | h
      · rw [hp] at hc; cases hc
      · exact ih h hc
    · rw [List.dropWhile_cons, if_neg hp]
      exact h

theorem dropEdges_prefix (p : Char → Bool) (s : Str) :
    (s.dropWhile p).reverse.dropWhile p <:+ (s.dropWhile p).reverse :=
  List.dropWhile_suffix p

theorem head?_of_prefix {l₁ l₂ : Str} (h : l₁ <+: l₂) {c : Char}
    (hc : l₁.head? = some c) : l₂.head? = some c := by
  obtain ⟨t, rfl⟩ := h
  cases l₁ with
  | nil => cases hc
  | cons a t' => simpa using hc

theorem getLast?_of_suffix {l₁ l₂ : Str} (h : l₁ <:+ l₂) {c : Char}
    (hc : l₁.getLast? = some c) : l₂.getLast? = some c := by
  rw [← List.head?_reverse] at hc ⊢
  exact head?_of_prefix (by simpa [List.reverse_prefix] using h.reverse) hc

theorem dropEdges_isPrefix (p : Char → Bool) (s : Str) :
    dropEdges p s <+: s.dropWhile p := by
  have h : dropEdges p s <+: ((s.dropWhile p).reverse).reverse :=
    List.reverse_prefix.mpr (List.dropWhile_suffix p)
  simpa using h

theorem dropEdges_head {p : Char → Bool} {s : Str} {c : Char}
    (h : (dropEdges p s).head? = some c) : p c = false := by
  have hp : (s.dropWhile p).head? = some c :=
    head?_of_prefix (dropEdges_isPrefix p s) h
  exact head_dropWhile_false p s c hp

theorem dropEdges_getLast {p : Char → Bool} {s : Str} {c : Char}
    (h : (dropEdges p s).getLast? = some c) : p c = false := by
  rw [dropEdges, ← List.head?_reverse, List.reverse_reverse] at h
  exact head_dropWhile_false p (s.dropWhile p).reverse c h

theorem dropEdges_eq_self {p : Char → Bool} {s : Str}
    (h1 : ∀ c, s.head? = some c → p c = false)
    (h2 : ∀ c, s.getLast? = some c → p c = false) : dropEdges p s = s := by
  have hds : s.dropWhile p = s := by
    cases s with
    | nil => rfl
    | cons a t => rw [List.dropWhile_cons, if_neg (by simp [h1 a rfl])]
  have hds2 : s.reverse.dropWhile p = s.reverse := by
    cases hrev : s.reverse with
    | nil => simp
    | cons a t =>
      have ha : s.getLast? = some a := by
        rw [← List.head?_reverse, hrev]; rfl
      rw [List.dropWhile_cons, if_neg (by simp [h2 a ha])]
  rw [dropEdges, hds, hds2, List.reverse_reverse]

theorem dropEdges_idem (p : Char → Bool) (s : Str) :
    dropEdges p (dropEdges p s) = dropEdges p s :=
  dropEdges_eq_self (fun _ h => dropEdges_head h) (fun _ h => dropEdges_getLast h)

theorem mem_dropEdges {p : Char → Bool} {s : Str} {c : Char}
    (h : c ∈ dropEdges p s) : c ∈ s := by
  have h1 := (dropEdges_isPrefix p s).sublist.mem h
  exact (List.dropWhile_sublist p).mem h1

theorem dropEdges_nil_all {p : Char → Bool} {s : Str}
    (h : dropEdges p s = []) : ∀ c ∈ s, p c = true := by
  intro c hc
  by_cases hpc : p c = true
  · exact hpc
  · exfalso
    have h1 : c ∈ s.dropWhile p :=
      mem_dropWhile_of_not p hc (Bool.not_eq_true _ |>.mp hpc)
    have h2 : c ∈ (s.dropWhile p).reverse.dropWhile p :=
      mem_dropWhile_of_not p (by simpa using h1) (Bool.not_eq_true _ |>.mp hpc)
    rw [dropEdges, List.reverse_eq_nil_iff] at h
    rw [h] at h2
    cases h2

theorem dropEdges_cons_of_pos {p : Char → Bool} {a : Char} (s : Str)
    (ha : p a = true) : dropEdges p (a :: s) = dropEdges p s := by
  rw [dropEdges, dropEdges, List.dropWhile_cons, if_pos ha]

theorem dropEdges_wrap {p : Char → Bool} {q : Char} {s : Str}
    (hq : p q = true) (hs : dropEdges p s = s) :
    dropEdges p (q :: (s ++ [q])) = s := by
  rw [dropEdges_cons_of_pos _ hq]
  cases s with
  | nil =>
    rw [dropEdges, List.nil_append]
    simp [List.dropWhile, hq]
  | cons c t =>
    have hc : p c = false := dropEdges_head (s := c :: t) (by rw [hs]; rfl)
    have hlast : ((c :: t) ++ [q]).reverse.dropWhile p = (c :: t).reverse := by
      have hm : ((c :: t) ++ [q]).reverse = q :: (c :: t).reverse := by simp
      rw [hm, List.dropWhile_cons, if_pos hq]
      cases hrev : (c :: t).reverse with
      | nil => simp at hrev
      | cons b u =>
        have hb : (c :: t).getLast? = some b := by
          rw [← List.head?_reverse, hrev]; rfl
        have hbp : p b = false := dropEdges_getLast (s := c :: t) (by rw [hs]; exact hb)
        rw [List.dropWhile_cons, if_neg (by simp [hbp])]
    have hfirst : ((c :: t) ++ [q]).dropWhile p = (c :: t) ++ [q] := by
      rw [List.cons_append, List.dropWhile_cons, if_neg (by simp [hc])]
    rw [dropEdges, hfirst, hlast, List.reverse_reverse]

theorem rustTrim_idem (s : Str) : rustTrim (rustTrim s) = rustTrim s := by
  rw [rustTrim_eq_dropEdges, rustTrim_eq_dropEdges, dropEdges_idem]

theorem rustTrim_cons_space (s : Str) : rustTrim (' ' :: s) = rustTrim s := by
  rw [rustTrim_eq_dropEdges, rustTrim_eq_dropEdges]
  exact dropEdges_cons_of_pos s (by decide)

theorem rustTrim_eq_self {s : Str}
    (h1 : ∀ c, s.head? = some c → rustIsWs c = false)
    (h2 : ∀ c, s.getLast? = some c → rustIsWs c = false) : rustTrim s = s := by
  rw [rustTrim_eq_dropEdges]; exact dropEdges_eq_self h1 h2

theorem rustTrim_nil_all_ws {s : Str} (h : rustTrim s = []) :
    ∀ c ∈ s, rustIsWs c = true := by
  rw [rustTrim_eq_dropEdges] at h; exact dropEdges_nil_all h

theorem mem_rustTrim {s : Str} {c : Char} (h : c ∈ rustTrim s) : c ∈ s := by
  rw [rustTrim_eq_dropEdges] at h; exact mem_dropEdges h

theorem rustTrim_head {s : Str} {c : Char}
    (h : (rustTrim s).head? = some c) : rustIsWs c = false := by
  rw [rustTrim_eq_dropEdges] at h; exact dropEdges_head h

theorem rustTrim_getLast {s : Str} {c : Char}
    (h : (rustTrim s).getLast? = some c) : rustIsWs c = false := by
  rw [rustTrim_eq_dropEdges] at h; exact dropEdges_getLast h

theorem trimQuotes_idem (s : Str) : trimQuotes (trimQuotes s) = trimQuotes s := by
  rw [trimQuotes_eq_dropEdges, trimQuotes_eq_dropEdges, dropEdges_idem]

theorem mem_trimQuotes {s : Str} {c : Char} (h : c ∈ trimQuotes s) : c ∈ s := by
  rw [trimQuotes_eq_dropEdges] at h; exact mem_dropEdges h

theorem trimQuotes_eq_self {s : Str}
    (h1 : ∀ c, s.head? = some c → (c = '"') = False)
    (h2 : ∀ c, s.getLast? = some c → (c = '"') = False) : trimQuotes s = s := by
  rw [trimQuotes_eq_dropEdges]
  exact dropEdges_eq_self (fun c hc => by simp [h1 c hc]) (fun c hc => by simp [h2 c hc])

theorem trimQuotes_wrap {s : Str} (hs : trimQuotes s = s) :
    trimQuotes ('"' :: (s ++ ['"'])) = s := by
  rw [trimQuotes_eq_dropEdges] at hs ⊢
  exact dropEdges_wrap (by decide) hs

theorem trimQuotes_head {s : Str} {c : Char}
    (h : (trimQuotes s).head? = some c) : (c = '"') = False := by
  rw [trimQuotes_eq_dropEdges] at h
  have := dropEdges_head h
  simpa using this

theorem trimQuotes_getLast {s : Str} {c : Char}
    (h : (trimQuotes s).getLast? = some c) : (c = '"') = False := by
  rw [trimQuotes_eq_dropEdges] at h
  have := dropEdges_getLast h
  simpa using this

theorem char_ne_of_toNat_ne {c d : Char} (h : c.toNat ≠ d.toNat) : c ≠ d :=
  fun hc => h (congrArg Char.toNat hc)

theorem alnum_char_facts {c : Char} (h : isAsciiAlphanum c = true) :
    rustIsWs c = false ∧ c ≠ ',' ∧ c ≠ '"' ∧ c ≠ '=' := by
  simp only [isAsciiAlphanum, Bool.or_eq_true, Bool.and_eq_true,
    decide_eq_true_eq] at h
  have hb : 48 ≤ c.toNat ∧ c.toNat ≤ 57 ∨ 97 ≤ c.toNat ∧ c.toNat ≤ 122 ∨
      65 ≤ c.toNat ∧ c.toNat ≤ 90 := by
    rcases h with (⟨h1, h2⟩ | ⟨h1, h2⟩) | ⟨h1, h2⟩
    · exact Or.inl ⟨h1, h2⟩
    · exact Or.inr (Or.inl ⟨h1, h2⟩)
    · exact Or.inr (Or.inr ⟨h1, h2⟩)
  refine ⟨?_, char_ne_of_toNat_ne ?_, char_ne_of_toNat_ne ?_, char_ne_of_toNat_ne ?_⟩
  · simp only [rustIsWs, Bool.or_eq_false_iff, Bool.and_eq_false_iff,
      decide_eq_false_iff_not]
    omega
  · show c.toNat ≠ 44; omega
  · show c.toNat ≠ 34; omega
  · show c.toNat ≠ 61; omega

theorem splitCharAux_no_sep {sep : Char} : ∀ {s : Str}, sep ∉ s →
    splitCharAux sep s = (s, []) := by
  intro s
  induction s with
  | nil => intro _; rfl
  | cons c t ih =>
    intro h
    have hc : ¬ c = sep := fun e => h (e ▸ List.mem_cons_self c t)
    simp only [splitCharAux, if_neg hc, ih (fun m => h (List.mem_cons_of_mem _ m))]

theorem splitChar_no_sep {sep : Char} {s : Str} (h : sep ∉ s) :
    splitChar sep s = [s] := by
  simp [splitChar, splitCharAux_no_sep h]

theorem splitCharAux_append_sep {sep : Char} {b : Str} : ∀ {a : Str}, sep ∉ a →
    splitCharAux sep (a ++ sep :: b) =
      (a, (splitCharAux sep b).1 :: (splitCharAux sep b).2) := by
  intro a
  induction a with
  | nil => intro _; simp [splitCharAux]
  | cons c t ih =>
    intro h
    have hc : ¬ c = sep := fun e => h (e ▸ List.mem_cons_self c t)
    rw [List.cons_append]
    simp only [splitCharAux, if_neg hc,
      ih (fun m => h (List.mem_cons_of_mem _ m))]

theorem splitChar_append_sep {sep : Char} {a b : Str} (h : sep ∉ a) :
    splitChar sep (a ++ sep :: b) = a :: splitChar sep b := by
  simp [splitChar, splitCharAux_append_sep h]

theorem splitCharAux_pieces_no_sep (sep : Char) :
    ∀ s : Str, sep ∉ (splitCharAux sep s).1 ∧
      ∀ q ∈ (splitCharAux sep s).2, sep ∉ q := by
  intro s
  induction s with
  | nil => exact ⟨by simp [splitCharAux], by simp [splitCharAux]⟩
  | cons c t ih =>
    by_cases hc : c = sep
    · refine ⟨by simp [splitCharAux, hc], ?_⟩
      intro q hq
      simp only [splitCharAux, hc, if_pos rfl] at hq
      rcases List.mem_cons.mp hq with rfl | hq
      · exact ih.1
      · exact ih.2 q hq
    · refine ⟨?_, ?_⟩
      · intro hmem
        simp only [splitCharAux, if_neg hc] at hmem
        rcases List.mem_cons.mp hmem with h | h
        · exact hc h.symm
        · exact ih.1 h
      · intro q hq
        simp only [splitCharAux, if_neg hc] at hq
        exact ih.2 q hq

theorem splitChar_pieces_no_sep {sep : Char} {s : Str} :
    ∀ q ∈ splitChar sep s, sep ∉ q := by
  intro q hq
  rcases List.mem_cons.mp hq with rfl | hq
  · exact (splitCharAux_pieces_no_sep sep s).1
  · exact (splitCharAux_pieces_no_sep sep s).2 q hq

theorem splitFirst_no_sep {sep : Char} : ∀ {s : Str}, sep ∉ s →
    splitFirst sep s = (s, none) := by
  intro s
  induction s with
  | nil => intro _; rfl
  | cons c t ih =>
    intro h
    have hc : ¬ c = sep := fun e => h (e ▸ List.mem_cons_self c t)
    simp only [splitFirst, if_neg hc, ih (fun m => h (List.mem_cons_of_mem _ m))]

theorem splitFirst_append_sep {sep : Char} {b : Str} : ∀ {a : Str}, sep ∉ a →
    splitFirst sep (a ++ sep :: b) = (a, some b) := by
  intro a
  induction a with
  | nil => intro _; simp [splitFirst]
  | cons c t ih =>
    intro h
    have hc : ¬ c = sep := fun e => h (e ▸ List.mem_cons_self c t)
    rw [List.cons_append]
    simp only [splitFirst, if_neg hc,
      ih (fun m => h (List.mem_cons_of_mem _ m))]

theorem splitFirst_fst_no_sep (sep : Char) :
    ∀ s : Str, sep ∉ (splitFirst sep s).1 := by
  intro s
  induction s with
  | nil => simp [splitFirst]
  | cons c t ih =>
    by_cases hc : c = sep
    · simp [splitFirst, hc]
    · intro hmem
      simp only [splitFirst, if_neg hc] at hmem
      rcases List.mem_cons.mp hmem with h | h
      · exact hc h.symm
      · exact ih h

theorem mem_splitFirst_fst {sep : Char} {c : Char} :
    ∀ {s : Str}, c ∈ (splitFirst sep s).1 → c ∈ s := by
  intro s
  induction s with
  | nil => intro h; cases h
  | cons a t ih =>
    intro h
    by_cases ha : a = sep
    · simp [splitFirst, ha] at h
    · simp only [splitFirst, if_neg ha] at h
      rcases List.mem_cons.mp h with rfl | h
      · exact List.mem_cons_self _ _
      · exact List.mem_cons_of_mem _ (ih h)

theorem mem_splitFirst_snd {sep : Char} {c : Char} :
    ∀ {s r : Str}, (splitFirst sep s).2 = some r → c ∈ r → c ∈ s := by
  intro s
  induction s with
  | nil => intro r h; cases h
  | cons a t ih =>
    intro r h hc
    by_cases ha : a = sep
    · simp only [splitFirst, if_pos ha] at h
      cases h
      exact List.mem_cons_of_mem _ hc
    · simp only [splitFirst, if_neg ha] at h
      exact List.mem_cons_of_mem _ (ih h hc)

theorem ccParts_single (s : Str) (h : ',' ∉ s) : ccParts [s] = [s] := by
  simp [ccParts, splitChar_no_sep h]

theorem parseCCStep_bare (k : Str) (hkt : rustTrim k = k) (hk : k ≠ [])
    (hke : '=' ∉ k) (cc : CacheControl) (b : Bool) (hl : ccLookup cc k = none) :
    parseCCStep (cc, b) k = (cc ++ [(k, none)], b) := by
  have hsp : splitFirst '=' k = (k, none) := splitFirst_no_sep hke
  simp [parseCCStep, hsp, hkt, hk, hl]

theorem parseCCStep_value (k v : Str) (hkt : rustTrim k ≠ [])
    (hke : '=' ∉ k) (cc : CacheControl) (b : Bool)
    (hl : ccLookup cc (rustTrim k) = none) :
    parseCCStep (cc, b) (k ++ '=' :: v) =
      (cc ++ [(rustTrim k, some (trimQuotes (rustTrim v)))], b) := by
  have hsp : splitFirst '=' (k ++ '=' :: v) = (k, some v) := splitFirst_append_sep hke
  have hne : ¬ rustTrim (k ++ '=' :: v) = [] := by
    intro hnil
    have := rustTrim_nil_all_ws hnil '='
      (List.mem_append_right _ (List.mem_cons_self _ _))
    simp [rustIsWs] at this
  simp [parseCCStep, hsp, hne, hkt, hl]

theorem parse_single_bare (k : Str) (hkt : rustTrim k = k) (hk : k ≠ [])
    (hkc : ',' ∉ k) (hke : '=' ∉ k) :
    parseCacheControl [k] = [(k, none)] := by
  have hparts : ccParts [k] = [k] := ccParts_single k hkc
  have hstep := parseCCStep_bare k hkt hk hke [] true rfl
  simp [parseCacheControl, parseCacheControlRaw, hparts, hstep]

theorem parse_single_value (k v : Str) (hkt : rustTrim k ≠ [])
    (hkc : ',' ∉ k) (hke : '=' ∉ k) (hvc : ',' ∉ v) :
    parseCacheControl [k ++ '=' :: v] =
      [(rustTrim k, some (trimQuotes (rustTrim v)))] := by
  have hpc : ',' ∉ k ++ '=' :: v := by
    intro hm
    rcases List.mem_append.mp hm with hm | hm
    · exact hkc hm
    · rcases List.mem_cons.mp hm with hm | hm
      · cases hm
      · exact hvc hm
  have hparts : ccParts [k ++ '=' :: v] = [k ++ '=' :: v] := ccParts_single _ hpc
  have hstep := parseCCStep_value k v hkt hke [] true rfl
  simp [parseCacheControl, parseCacheControlRaw, hparts, hstep]

end StringLemmas

section RoundTrip

theorem parseCCStep_inv {st : CacheControl × Bool} {part : Str}
    (hp : ',' ∉ part)
    (hinv : (∀ e ∈ st.1, EntryInv e) ∧ (st.1.map Prod.fst).Nodup) :
    (∀ e ∈ (parseCCStep st part).1, EntryInv e) ∧
      ((parseCCStep st part).1.map Prod.fst).Nodup := by
  obtain ⟨st1, st2⟩ := st
  simp only [parseCCStep]
  split
  · exact hinv
  · split
    · exact hinv
    · next hkne =>
      split
      · exact hinv
      · next hl =>
        constructor
        · intro e he
          rcases List.mem_append.mp he with he | he
          · exact hinv.1 e he
          · have he' : e = (rustTrim (splitFirst '=' part).1,
                ((splitFirst '=' part).2.map rustTrim).map trimQuotes) := by
              simpa using he
            subst he'
            refine ⟨hkne, rustTrim_idem _, ?_, ?_, ?_⟩
            · intro hm
              exact hp (mem_splitFirst_fst (mem_rustTrim hm))
            · intro hm
              exact splitFirst_fst_no_sep '=' part (mem_rustTrim hm)
            · intro w hw
              cases hv : (splitFirst '=' part).2 with
              | none => rw [hv] at hw; cases hw
              | some r =>
                rw [hv] at hw
                simp only [Option.map_some', Option.some.injEq] at hw
                subst hw
                refine ⟨?_, trimQuotes_idem _⟩
                intro hm
                exact hp (mem_splitFirst_snd hv (mem_rustTrim (mem_trimQuotes hm)))
        · have hnotin : rustTrim (splitFirst '=' part).1 ∉ st1.map Prod.fst := by
            intro hmem
            rcases List.mem_map.mp hmem with ⟨e, he, heq⟩
            have : List.find? (fun e2 => e2.1 = rustTrim (splitFirst '=' part).1) st1
                = none := by
              simpa [ccLookup] using hl
            have := List.find?_eq_none.mp this e he
            simp [heq] at this
          simp only [List.map_append, List.map_cons, List.map_nil]
          rw [List.nodup_append]
          exact ⟨hinv.2, List.nodup_singleton _,
            fun a ha hb => hnotin ((List.mem_singleton.mp hb) ▸ ha)⟩

theorem needsQuote_false {w : Str} (h : needsQuote w = false) :
    w ≠ [] ∧ ∀ c ∈ w, isAsciiAlphanum c = true := by
  simp only [needsQuote, Bool.or_eq_false_iff, List.isEmpty_eq_false,
    List.any_eq_false, decide_eq_true_eq, not_not] at h
  exact h

theorem ccEntryText_ne_nil {e : Str × Option Str} (hE : EntryInv e) :
    ccEntryText e ≠ [] := by
  obtain ⟨k, v⟩ := e
  obtain ⟨hk, -, -, -, -⟩ := hE
  cases k with
  | nil => exact absurd rfl hk
  | cons c t => simp [ccEntryText]

theorem ccEntryText_no_comma {e : Str × Option Str} (hE : EntryInv e) :
    ',' ∉ ccEntryText e := by
  obtain ⟨k, v⟩ := e
  obtain ⟨-, -, hkc, -, hv⟩ := hE
  intro hm
  simp only [ccEntryText] at hm
  rcases List.mem_append.mp hm with hm | hm
  · exact hkc hm
  · cases v with
    | none => cases hm
    | some w =>
      simp only at hm
      rcases List.mem_cons.mp hm with h | hm
      · exact absurd h (by decide)
      · by_cases hq : needsQuote w = true
        · rw [if_pos hq] at hm
          rcases List.mem_cons.mp hm with h | hm
          · exact absurd h (by decide)
          · rcases List.mem_append.mp hm with hm | hm
            · exact (hv w rfl).1 hm
            · exact absurd (List.mem_singleton.mp hm) (by decide)
        · rw [if_neg hq] at hm
          exact (hv w rfl).1 hm

theorem ccEntryText_trim_fixed {e : Str × Option Str} (hE : EntryInv e) :
    rustTrim (ccEntryText e) = ccEntryText e := by
  obtain ⟨k, v⟩ := e
  obtain ⟨hk, hkt, hkc, hke, hv⟩ := hE
  apply rustTrim_eq_self
  · intro c hc
    cases k with
    | nil => exact absurd rfl hk
    | cons a t =>
      have hac : a = c := by simpa [ccEntryText] using hc
      subst hac
      exact rustTrim_head (s := a :: t) (by rw [hkt]; rfl)
  · intro c hc
    cases v with
    | none =>
      have hc' : k.getLast? = some c := by simpa [ccEntryText] using hc
      exact rustTrim_getLast (s := k) (by rw [hkt]; exact hc')
    | some w =>
      by_cases hq : needsQuote w = true
      · have hsh : ccEntryText (k, some w) = (k ++ '=' :: '"' :: w) ++ ['"'] := by
          simp [ccEntryText, hq]
        rw [hsh, List.getLast?_concat] at hc
        have : '"' = c := by simpa using hc
        subst this
        decide
      · have hnq := needsQuote_false (Bool.not_eq_true _ |>.mp hq)
        have hsh : ccEntryText (k, some w) = k ++ '=' :: w := by
          simp [ccEntryText, hq]
        rw [hsh] at hc
        have hc' : w.getLast? = some c := by
          rw [List.getLast?_append_of_ne_nil _ (by simp)] at hc
          have hcw : ('=' :: w).getLast? = w.getLast? := by
            cases w with
            | nil => exact absurd rfl hnq.1
            | cons b u => simp [List.getLast?_cons_cons]
          rw [hcw] at hc
          exact hc
        exact (alnum_char_facts (hnq.2 c (List.mem_of_mem_getLast? hc'))).1

theorem rustTrim_sp_append {sp : Str} (hsp : sp = [] ∨ sp = [' ']) (s : Str)
    (hs : rustTrim s = s) : rustTrim (sp ++ s) = s := by
  rcases hsp with rfl | rfl
  · simpa using hs
  · rw [List.singleton_append, rustTrim_cons_space]; exact hs

theorem parseCCStep_entryText {sp : Str} (hsp : sp = [] ∨ sp = [' '])
    {e : Str × Option Str} (hE : EntryInv e) (cc : CacheControl) (b : Bool)
    (hl : ccLookup cc e.1 = none) :
    parseCCStep (cc, b) (sp ++ ccEntryText e) = (cc ++ [e], b) := by
  obtain ⟨k, v⟩ := e
  obtain ⟨hk, hkt, hkc, hke, hv⟩ := hE
  have hke' : '=' ∉ sp ++ k := by
    intro hm
    rcases List.mem_append.mp hm with hm | hm
    · rcases hsp with rfl | rfl
      · cases hm
      · exact absurd (List.mem_singleton.mp hm) (by decide)
    · exact hke hm
  have hEfull : EntryInv (k, v) := ⟨hk, hkt, hkc, hke, hv⟩
  have htf : rustTrim (sp ++ ccEntryText (k, v)) = ccEntryText (k, v) :=
    rustTrim_sp_append hsp _ (ccEntryText_trim_fixed hEfull)
  have hne : ¬ rustTrim (sp ++ ccEntryText (k, v)) = [] := by
    rw [htf]; exact ccEntryText_ne_nil hEfull
  have hktrim : rustTrim (sp ++ k) = k := rustTrim_sp_append hsp k hkt
  cases v with
  | none =>
    have htext : ccEntryText (k, none) = k := by simp [ccEntryText]
    have hsf : splitFirst '=' (sp ++ ccEntryText (k, none)) = (sp ++ k, none) := by
      rw [htext]; exact splitFirst_no_sep hke'
    simp [parseCCStep, hne, hsf, hktrim, hk, hl]
  | some w =>
    have hw := hv w rfl
    by_cases hq : needsQuote w = true
    · have htext : ccEntryText (k, some w) = k ++ '=' :: ('"' :: (w ++ ['"'])) := by
        simp [ccEntryText, hq]
      have hsf : splitFirst '=' (sp ++ ccEntryText (k, some w))
          = (sp ++ k, some ('"' :: (w ++ ['"']))) := by
        rw [htext, ← List.append_assoc]
        exact splitFirst_append_sep hke'
      have htr : rustTrim ('"' :: (w ++ ['"'])) = '"' :: (w ++ ['"']) := by
        apply rustTrim_eq_self
        · intro c hc
          have : '"' = c := by simpa using hc
          subst this; decide
        · intro c hc
          have hshape : ('"' :: (w ++ ['"'])) = ('"' :: w) ++ ['"'] := by simp
          rw [hshape, List.getLast?_concat] at hc
          have : '"' = c := by simpa using hc
          subst this; decide
      have hvrec : trimQuotes (rustTrim ('"' :: (w ++ ['"']))) = w := by
        rw [htr]; exact trimQuotes_wrap hw.2
      simp [parseCCStep, hne, hsf, hktrim, hk, hl, hvrec]
    · have hnq := needsQuote_false (Bool.not_eq_true _ |>.mp hq)
      have htext : ccEntryText (k, some w) = k ++ '=' :: w := by
        simp [ccEntryText, hq]
      have hsf : splitFirst '=' (sp ++ ccEntryText (k, some w)) = (sp ++ k, some w) := by
        rw [htext, ← List.append_assoc]
        exact splitFirst_append_sep hke'
      have htr : rustTrim w = w := rustTrim_eq_self
        (fun c hc => (alnum_char_facts (hnq.2 c (List.mem_of_mem_head? hc))).1)
        (fun c hc => (alnum_char_facts (hnq.2 c (List.mem_of_mem_getLast? hc))).1)
      have htq : trimQuotes w = w := hw.2
      have hvrec : trimQuotes (rustTrim w) = w := by rw [htr]; exact htq
      simp [parseCCStep, hne, hsf, hktrim, hk, hl, hvrec]

theorem parse_fold_inv (parts : List Str) (hp : ∀ q ∈ parts, ',' ∉ q) :
    ∀ st : CacheControl × Bool,
      ((∀ e ∈ st.1, EntryInv e) ∧ (st.1.map Prod.fst).Nodup) →
      (∀ e ∈ (parts.foldl parseCCStep st).1, EntryInv e) ∧
        (((parts.foldl parseCCStep st).1.map Prod.fst)).Nodup := by
  induction parts with
  | nil => intro st h; exact h
  | cons q rest ih =>
    intro st h
    rw [List.foldl_cons]
    exact ih (fun x hx => hp x (List.mem_cons_of_mem _ hx)) _
      (parseCCStep_inv (hp q (List.mem_cons_self _ _)) h)

theorem parseRaw_inv (headers : List Str) :
    (∀ e ∈ (parseCacheControlRaw headers).1, EntryInv e) ∧
      (((parseCacheControlRaw headers).1.map Prod.fst)).Nodup := by
  refine parse_fold_inv (ccParts headers) ?_ ([], true) ⟨by simp, by simp⟩
  intro q hq
  rcases List.mem_flatMap.mp hq with ⟨s, _, hqs⟩
  exact splitChar_pieces_no_sep q hqs

theorem ccLookup_eq_none_iff (cc : CacheControl) (k : Str) :
    ccLookup cc k = none ↔ k ∉ cc.map Prod.fst := by
  constructor
  · intro h hk
    rcases List.mem_map.mp hk with ⟨e, he, heq⟩
    have hf : List.find? (fun e2 => e2.1 = k) cc = none := by
      simpa [ccLookup] using h
    have := List.find?_eq_none.mp hf e he
    simp [heq] at this
  · intro h
    have hf : List.find? (fun e2 => e2.1 = k) cc = none := by
      rw [List.find?_eq_none]
      intro e he
      simp only [decide_eq_true_eq]
      intro heq
      exact h (List.mem_map.mpr ⟨e, he, heq⟩)
    simp [ccLookup, hf]

theorem formatCacheControl_glue (es : List (Str × Option Str)) :
    ∀ acc : Str, acc ≠ [] →
      es.foldl (fun out e =>
          (if out ≠ [] then out ++ [',', ' '] else out) ++ ccEntryText e) acc
        = acc ++ es.flatMap (fun e => ',' :: ' ' :: ccEntryText e) := by
  induction es with
  | nil => intro acc _; simp
  | cons e rest ih =>
    intro acc hacc
    rw [List.foldl_cons, if_pos hacc]
    rw [ih (acc ++ [',', ' '] ++ ccEntryText e) (by simp)]
    simp

theorem formatCacheControl_cons (e : Str × Option Str)
    (es : List (Str × Option Str)) (hne : ccEntryText e ≠ []) :
    formatCacheControl (e :: es)
      = ccEntryText e ++ es.flatMap (fun e2 => ',' :: ' ' :: ccEntryText e2) := by
  rw [formatCacheControl, List.foldl_cons]
  have h0 : (if ([] : Str) ≠ [] then ([] : Str) ++ [',', ' '] else []) ++ ccEntryText e
      = ccEntryText e := by simp
  rw [h0]
  exact formatCacheControl_glue es _ hne

theorem splitChar_glue_entries (es : List (Str × Option Str)) :
    ∀ t : Str, ',' ∉ t → (∀ e ∈ es, ',' ∉ ccEntryText e) →
      splitChar ',' (t ++ es.flatMap (fun e => ',' :: ' ' :: ccEntryText e)) =
        t :: es.map (fun e => ' ' :: ccEntryText e) := by
  induction es with
  | nil => intro t ht _; simpa using splitChar_no_sep ht
  | cons e rest ih =>
    intro t ht hq
    have hshape : t ++ ((e :: rest).flatMap (fun e2 => ',' :: ' ' :: ccEntryText e2))
        = t ++ ',' :: ((' ' :: ccEntryText e)
            ++ rest.flatMap (fun e2 => ',' :: ' ' :: ccEntryText e2)) := by
      simp
    rw [hshape, splitChar_append_sep ht]
    have hsp : ',' ∉ ' ' :: ccEntryText e := by
      intro hm
      rcases List.mem_cons.mp hm with hm | hm
      · exact absurd hm (by decide)
      · exact hq e (List.mem_cons_self _ _) hm
    rw [ih (' ' :: ccEntryText e) hsp (fun e2 he2 => hq e2 (List.mem_cons_of_mem _ he2))]
    simp

theorem parseCCStep_entryText_space {e : Str × Option Str} (hE : EntryInv e)
    (cc : CacheControl) (b : Bool) (hl : ccLookup cc e.1 = none) :
    parseCCStep (cc, b) (' ' :: ccEntryText e) = (cc ++ [e], b) := by
  simpa using parseCCStep_entryText (Or.inr rfl) hE cc b hl

theorem parseCCStep_entryText_plain {e : Str × Option Str} (hE : EntryInv e)
    (cc : CacheControl) (b : Bool) (hl : ccLookup cc e.1 = none) :
    parseCCStep (cc, b) (ccEntryText e) = (cc ++ [e], b) := by
  simpa using parseCCStep_entryText (Or.inl rfl) hE cc b hl

theorem parse_fold_entryTexts (es : List (Str × Option Str)) :
    ∀ (done : CacheControl) (b : Bool),
      (∀ e ∈ es, EntryInv e) →
      (∀ e ∈ es, e.1 ∉ done.map Prod.fst) →
      (es.map Prod.fst).Nodup →
      (es.map (fun e => ' ' :: ccEntryText e)).foldl parseCCStep (done, b)
        = (done ++ es, b) := by
  induction es with
  | nil => intro done b _ _ _; simp
  | cons e rest ih =>
    intro done b hE hdisj hnd
    rw [List.map_cons, List.foldl_cons]
    have hl : ccLookup done e.1 =  none :=
      (ccLookup_eq_none_iff done e.1).mpr (hdisj e (List.mem_cons_self _ _))
    rw [parseCCStep_entryText_space (hE e (List.mem_cons_self _ _)) done b hl]
    have hndr : (rest.map Prod.fst).Nodup := by
      rw [List.map_cons, List.nodup_cons] at hnd
      exact hnd.2
    have hnin : e.1 ∉ rest.map Prod.fst := by
      rw [List.map_cons, List.nodup_cons] at hnd
      exact hnd.1
    have hdisj' : ∀ e2 ∈ rest, e2.1 ∉ (done ++ [e]).map Prod.fst := by
      intro e2 he2 hm
      rw [List.map_append] at hm
      rcases List.mem_append.mp hm with hm | hm
      · exact hdisj e2 (List.mem_cons_of_mem _ he2) hm
      · rcases List.mem_singleton.mp hm with heq
        exact hnin (heq ▸ List.mem_map.mpr ⟨e2, he2, rfl⟩)
    rw [ih (done ++ [e]) b (fun e2 he2 => hE e2 (List.mem_cons_of_mem _ he2))
      hdisj' hndr]
    simp

theorem parse_format_of_inv (cc : CacheControl)
    (hinv : ∀ e ∈ cc, EntryInv e) (hnd : (cc.map Prod.fst).Nodup) :
    parseCacheControl [formatCacheControl cc] = cc := by
  cases cc with
  | nil => decide
  | cons e es =>
    have hEe := hinv e (List.mem_cons_self _ _)
    have htne := ccEntryText_ne_nil hEe
    have hccparts : ccParts [formatCacheControl (e :: es)]
        = ccEntryText e :: es.map (fun e2 => ' ' :: ccEntryText e2) := by
      rw [formatCacheControl_cons e es htne]
      have hsplit := splitChar_glue_entries es (ccEntryText e)
        (ccEntryText_no_comma hEe)
        (fun e2 he2 => ccEntryText_no_comma (hinv e2 (List.mem_cons_of_mem _ he2)))
      simp [ccParts, hsplit]
    have hndr : (es.map Prod.fst).Nodup := by
      rw [List.map_cons, List.nodup_cons] at hnd
      exact hnd.2
    have hnin : e.1 ∉ es.map Prod.fst := by
      rw [List.map_cons, List.nodup_cons] at hnd
      exact hnd.1
    have hraw : parseCacheControlRaw [formatCacheControl (e :: es)] = (e :: es, true) := by
      rw [parseCacheControlRaw, hccparts, List.foldl_cons]
      rw [parseCCStep_entryText_plain hEe [] true rfl]
      rw [parse_fold_entryTexts es ([] ++ [e]) true
        (fun e2 he2 => hinv e2 (List.mem_cons_of_mem _ he2))
        (by
          intro e2 he2 hm
          simp only [List.nil_append, List.map_cons, List.map_nil] at hm
          rcases List.mem_singleton.mp hm with heq
          exact hnin (heq ▸ List.mem_map.mpr ⟨e2, he2, rfl⟩))
        hndr]
      simp
    simp [parseCacheControl, hraw]

/-- C8: on header lists without conflicting duplicate directives, the parser
is idempotent across a formatter round-trip. -/
theorem parse_format_parse_roundtrip (h : List Str)
    (hvalid : (parseCacheControlRaw h).2 = true) :
    parseCacheControl [formatCacheControl (parseCacheControl h)]
      = parseCacheControl h := by
  have hpch : parseCacheControl h = (parseCacheControlRaw h).1 := by
    simp [parseCacheControl, hvalid]
  rw [hpch]
  obtain ⟨hinv, hnd⟩ := parseRaw_inv h
  exact parse_format_of_inv _ hinv hnd

/-- Witness for C8 at a concrete header list (no conflicting duplicates). -/
theorem parse_format_parse_roundtrip_witness :
    parseCacheControl [formatCacheControl (parseCacheControl
        ["public, max-age=100, foo=\"a b\"".toList, "no-transform".toList])]
      = parseCacheControl
        ["public, max-age=100, foo=\"a b\"".toList, "no-transform".toList] :=
  parse_format_parse_roundtrip
    ["public, max-age=100, foo=\"a b\"".toList, "no-transform".toList] (by decide)

end RoundTrip

section SupportLemmas

theorem satisfies_isSome (tm : TimeModel) (p : Policy) (reqHeaders : HeaderMap)
    (now : Nat) : (satisfiesWithoutRevalidation tm p reqHeaders now).isSome = true := by
  simp only [satisfiesWithoutRevalidation]
  split
  · rfl
  · split
    · rfl
    · split
      · rfl
      · split
        · next hstale =>
          split
          · split
            · rfl
            · next v hv =>
              have hle : maxAge tm p ≤ age p now := by
                simpa [isStale] using hstale
              simp [durSub, hle]
          · rfl
        · rfl

theorem stale_ite_ne_fresh (c : Bool) (r1 r2 : RequestParts) (m1 m2 : Bool)
    (parts : ResponseParts) :
    (if c = true then BeforeRequest.Stale r1 m1 else BeforeRequest.Stale r2 m2)
      ≠ BeforeRequest.Fresh parts := by
  cases c <;> simp

theorem satisfies_true_stale_analysis (tm : TimeModel) (p : Policy)
    (reqHeaders : HeaderMap) (now : Nat)
    (h : satisfiesWithoutRevalidation tm p reqHeaders now = some true) :
    isStale tm p now = false ∨
      (ccContainsKey (parseCacheControl (hmGetAll reqHeaders (hn "cache-control")))
          (hn "max-stale") = true ∧
        ccContainsKey p.res_cc (hn "must-revalidate") = false ∧
        ∀ v, ((ccLookup (parseCacheControl (hmGetAll reqHeaders (hn "cache-control")))
            (hn "max-stale")).bind id).bind parseU64 = some v →
          v > age p now - maxAge tm p) := by
  simp only [satisfiesWithoutRevalidation] at h
  split at h
  · simp at h
  · split at h
    · simp at h
    · split at h
      · simp at h
      · split at h
        · next hstale =>
          right
          split at h
          · next hcond =>
            rw [Bool.and_eq_true] at hcond
            have hmr : ccContainsKey p.res_cc (hn "must-revalidate") = false := by
              have := hcond.1
              simp only [decide_eq_true_eq, Bool.not_eq_true] at this
              exact this
            refine ⟨hcond.2, hmr, ?_⟩
            intro v hv
            split at h
            · next hparse => rw [hv] at hparse; cases hparse
            · next v' hparse =>
              rw [hv] at hparse
              injection hparse with hvv
              subst hvv
              have hle : maxAge tm p ≤ age p now := by
                simpa [isStale] using hstale
              simp [durSub, hle] at h
              exact h
          · simp at h
        · next hns =>
          left
          exact Bool.not_eq_true _ |>.mp hns

end SupportLemmas

section ClaimTheorems

/-- C5: for every policy `P` with `is_storable(P) = false` and every time `t`,
`max_age(P) = 0` and `time_to_live(P, t) = 0`. -/
theorem not_storable_zero_freshness (tm : TimeModel) (p : Policy) (now : Nat)
    (h : isStorable p = false) :
    maxAge tm p = 0 ∧ timeToLive tm p now = 0 := by
  have hm : maxAge tm p = 0 := by unfold maxAge; simp [h]
  exact ⟨hm, by simp [timeToLive, hm]⟩

/-- Witness for C5 at a concrete request-`no-store` policy. -/
theorem not_storable_zero_freshness_witness :
    isStorable pNoStore = false ∧
      (maxAge tmEx pNoStore = 0 ∧ timeToLive tmEx pNoStore 7 = 0) :=
  ⟨by decide, not_storable_zero_freshness tmEx pNoStore 7 (by decide)⟩

/-- C6: the three characterisations of staleness coincide: `is_stale(P, t)`
holds iff `max_age(P) ≤ age(P, t)` iff `time_to_live(P, t) = 0`. -/
theorem is_stale_characterisations (tm : TimeModel) (p : Policy) (now : Nat) :
    (isStale tm p now = true ↔ maxAge tm p ≤ age p now) ∧
      (maxAge tm p ≤ age p now ↔ timeToLive tm p now = 0) := by
  refine ⟨by simp [isStale], ?_⟩
  simp only [timeToLive]
  omega

/-- C10: `before_request` is total — it never reaches the panicking
`Duration` subtraction, because that subtraction sits under the
`is_stale(now)` guard which guarantees `max_age ≤ age(now)`. -/
theorem before_request_total (tm : TimeModel) (p : Policy) (req : Request)
    (now : Nat) : (beforeRequest tm p req now).isSome = true := by
  have hs := satisfies_isSome tm p req.headers now
  simp only [beforeRequest]
  split
  · cases h : satisfiesWithoutRevalidation tm p req.headers now with
    | none => rw [h] at hs; simp at hs
    | some b => simp [h]
  · rfl

/-- C7: a POST policy is storable only with explicit expiration
(`s-maxage` when shared, `max-age`, or `Expires`); status-default
cacheability does not extend POST, while GET and HEAD policies are storable
without explicit expiration. -/
theorem post_storable_requires_explicit_expiration :
    (∀ p : Policy, p.method = Method.POST → isStorable p = true →
      hasExplicitExpiration p = true) ∧
    isStorable pPostDefault = false ∧
    isStorable pGetDefault = true ∧
    isStorable pHeadDefault = true := by
  refine ⟨?_, by decide, by decide, by decide⟩
  intro p hm hs
  by_contra hne
  have hne' : hasExplicitExpiration p = false := by
    simpa using hne
  simp [isStorable, hm, hne'] at hs

/-- Witness for C7 at a concrete POST policy carrying `max-age`. -/
theorem post_storable_requires_explicit_expiration_witness :
    hasExplicitExpiration pPostMaxAge = true :=
  post_storable_requires_explicit_expiration.1 pPostMaxAge (by decide) (by decide)

/-- C4: if `before_request` returns `Fresh`, then the response was not stale,
or the request carried `max-stale` while the stored response lacked
`must-revalidate` (and any integer `max-stale` value exceeds
`age(now) − max_age`). -/
theorem fresh_implies_not_stale_or_allowed_staleness (tm : TimeModel)
    (p : Policy) (req : Request) (now : Nat) (parts : ResponseParts)
    (h : beforeRequest tm p req now = some (.Fresh parts)) :
    isStale tm p now = false ∨
      (ccContainsKey (parseCacheControl (hmGetAll req.headers (hn "cache-control")))
          (hn "max-stale") = true ∧
        ccContainsKey p.res_cc (hn "must-revalidate") = false ∧
        ∀ v, ((ccLookup (parseCacheControl (hmGetAll req.headers (hn "cache-control")))
            (hn "max-stale")).bind id).bind parseU64 = some v →
          v > age p now - maxAge tm p) := by
  have hsat : satisfiesWithoutRevalidation tm p req.headers now = some true := by
    simp only [beforeRequest] at h
    split at h
    · cases hs : satisfiesWithoutRevalidation tm p req.headers now with
      | none => rw [hs] at h; cases h
      | some b =>
        cases b with
        | true => rfl
        | false =>
          rw [hs] at h
          simp only [Option.map_some', Bool.false_eq_true, if_false,
            Option.some.injEq] at h
          exact absurd h (stale_ite_ne_fresh _ _ _ _ _ _)
    · rw [Option.some.injEq] at h
      exact absurd h (stale_ite_ne_fresh _ _ _ _ _ _)
  exact satisfies_true_stale_analysis tm p req.headers now hsat

/-- Witness for C4: a fresh cache hit at a concrete policy and request. -/
theorem fresh_implies_not_stale_or_allowed_staleness_witness :
    isStale tmEx pFresh 0 = false ∨
      (ccContainsKey (parseCacheControl (hmGetAll reqFresh.headers (hn "cache-control")))
          (hn "max-stale") = true ∧
        ccContainsKey pFresh.res_cc (hn "must-revalidate") = false ∧
        ∀ v, ((ccLookup (parseCacheControl (hmGetAll reqFresh.headers (hn "cache-control")))
            (hn "max-stale")).bind id).bind parseU64 = some v →
          v > age pFresh 0 - maxAge tmEx pFresh) :=
  fresh_implies_not_stale_or_allowed_staleness tmEx pFresh reqFresh 0
    (cachedResponse tmEx pFresh 0) (by decide)

/-- C1: evaluation of `after_response` at the failing input. The stored
response has `Last-Modified` and no `ETag`; a `304` with no validator at all,
or with a different `Last-Modified`, nevertheless "matches" (yielding
`NotModified`), because the source computes `old_last_modified` from the new
response's headers instead of the stored ones. -/
theorem after_response_ignores_stored_last_modified :
    hmGetStr pLastModified.res (hn "last-modified") =
      some "Tue, 15 Nov 1994 12:45:26 GMT".toList ∧
    hmGetStr pLastModified.res (hn "etag") = none ∧
    afterResponseMatches pLastModified 304 [] = true ∧
    afterResponseMatches pLastModified 304
      [(hn "last-modified", "Thu, 01 Jun 2000 00:00:00 GMT".toList)] = true ∧
    (match afterResponse tmEx pLastModified reqFresh 304 [] 5 with
      | .NotModified _ _ => true
      | .Modified _ _ => false) = true := by
  refine ⟨by decide, by decide, by decide, by decide, ?_⟩
  decide

/-- C2 counterexample: a HEAD request for a *different* URI (`/b` against the
stored `/a`) is not treated as a miss — `before_request` hands back the full
revalidation request carrying the stored validator in `If-None-Match`. -/
theorem head_other_uri_gets_revalidation_request :
    reqHeadB.method = Method.HEAD ∧
    ¬ reqHeadB.uri = pEtagA.uri ∧
    beforeRequest tmEx pEtagA reqHeadB 5 = some (.Stale revalPartsA false) ∧
    hmGet revalPartsA.headers (hn "if-none-match") = some "\"xyzzy\"".toList := by
  refine ⟨by decide, by decide, by decide, by decide⟩

/-- C2 as amended: `before_request` builds the revalidation request exactly
when `exact_match` holds or the new request's method is HEAD (regardless of
URI/Host/Vary agreement); a non-matching non-HEAD request gets its own
headers back unchanged. -/
theorem before_request_revalidation_characterisation (tm : TimeModel)
    (p : Policy) (req : Request) (now : Nat) (r : BeforeRequest)
    (h : beforeRequest tm p req now = some r) :
    (∀ parts, r = .Fresh parts → (requestMatches p req).1 = true) ∧
    (∀ rp m, r = .Stale rp m →
      m = (requestMatches p req).1 ∧
      (((requestMatches p req).1 || req.method = Method.HEAD) = true →
        rp = revalidationRequest p req) ∧
      (((requestMatches p req).1 || req.method = Method.HEAD) = false →
        rp = requestFromHeaders p req.headers)) := by
  have hsnd : (requestMatches p req).2
      = ((requestMatches p req).1 || req.method = Method.HEAD) := rfl
  simp only [beforeRequest] at h
  split at h
  · next hmt =>
    cases hs : satisfiesWithoutRevalidation tm p req.headers now with
    | none => rw [hs] at h; cases h
    | some b =>
      rw [hs] at h
      cases b with
      | true =>
        have hr : BeforeRequest.Fresh (cachedResponse tm p now) = r := by
          simpa using h
        subst hr
        refine ⟨fun parts _ => hmt, fun rp m hEq => ?_⟩
        simp at hEq
      | false =>
        have hr : (if (requestMatches p req).2 = true
            then BeforeRequest.Stale (revalidationRequest p req) (requestMatches p req).1
            else BeforeRequest.Stale (requestFromHeaders p req.headers)
              (requestMatches p req).1) = r := by
          simpa using h
        rw [hsnd, hmt, Bool.true_or] at hr
        rw [if_pos rfl] at hr
        subst hr
        refine ⟨fun parts hEq => by simp at hEq, fun rp m hEq => ?_⟩
        injection hEq with h1 h2
        subst h1; subst h2
        refine ⟨hmt.symm, fun _ => rfl, fun hF => ?_⟩
        rw [hmt] at hF
        simp at hF
  · next hmf =>
    have hmf' : (requestMatches p req).1 = false := by
      simpa using hmf
    rw [Option.some.injEq] at h
    rw [hsnd, hmf', Bool.false_or] at h
    refine ⟨fun parts hEq => ?_, fun rp m hEq => ?_⟩
    · rw [← h] at hEq
      split at hEq <;> simp at hEq
    · rw [← h] at hEq
      split at hEq
      · next hc =>
        injection hEq with h1 h2
        subst h1; subst h2
        rw [hmf', Bool.false_or]
        exact ⟨rfl, fun _ => rfl, fun hF => by rw [hF] at hc; cases hc⟩
      · next hc =>
        injection hEq with h1 h2
        subst h1; subst h2
        rw [hmf', Bool.false_or]
        have hc' : (req.method = Method.HEAD : Bool) = false := by
          simpa using hc
        exact ⟨rfl, fun hT => absurd hT (by simp [hc']), fun _ => rfl⟩

/-- Witness for the amended C2 at the concrete non-matching HEAD request. -/
theorem before_request_revalidation_characterisation_witness :
    (∀ parts, (BeforeRequest.Stale revalPartsA false)
        = .Fresh parts → (requestMatches pEtagA reqHeadB).1 = true) ∧
    (∀ rp m, (BeforeRequest.Stale revalPartsA false)
        = .Stale rp m →
      m = (requestMatches pEtagA reqHeadB).1 ∧
      (((requestMatches pEtagA reqHeadB).1 || reqHeadB.method = Method.HEAD) = true →
        rp = revalidationRequest pEtagA reqHeadB) ∧
      (((requestMatches pEtagA reqHeadB).1 || reqHeadB.method = Method.HEAD) = false →
        rp = requestFromHeaders pEtagA reqHeadB.headers)) :=
  before_request_revalidation_characterisation tmEx pEtagA reqHeadB 5 _ (by decide)

/-- C3 counterexample: the parser does **not** lowercase directive names, so
`Cache-Control: No-Store` on a response is not recognised — the policy stays
storable, unlike with the lowercase spelling. -/
theorem directive_case_sensitivity_counterexample :
    isStorable pNoStoreUpper = true ∧
    isStorable pNoStoreLower = false ∧
    ccContainsKey pNoStoreUpper.res_cc (hn "no-store") = false ∧
    ccLookup pNoStoreUpper.res_cc "No-Store".toList = some none := by
  refine ⟨by decide, by decide, by decide, by decide⟩

/-- C3 as amended: the parser inserts a directive name exactly as written
(after trimming), without lowercasing, so matching against the lowercase
literals is case-sensitive. -/
theorem parser_preserves_directive_case (k : Str) (hkt : rustTrim k = k)
    (hk : k ≠ []) (hkc : ',' ∉ k) (hke : '=' ∉ k) :
    parseCacheControl [k] = [(k, none)] :=
  parse_single_bare k hkt hk hkc hke

/-- Witness for the amended C3 at the capitalised directive `No-Store`. -/
theorem parser_preserves_directive_case_witness :
    parseCacheControl ["No-Store".toList] = [("No-Store".toList, none)] :=
  parser_preserves_directive_case "No-Store".toList (by decide) (by decide)
    (by decide) (by decide)

/-- C9 counterexample: a value wrapped in two pairs of quotes loses both —
`a=""b""` stores the value `b`, not `"b"` as one-pair stripping would give. -/
theorem double_quoted_value_loses_both_pairs :
    ccLookup (parseCacheControl ["a=\"\"b\"\"".toList]) "a".toList =
      some (some "b".toList) ∧
    "b".toList ≠ "\"b\"".toList := by
  refine ⟨by decide, by decide⟩

/-- C9 as amended: for a directive token `k=v` the stored value is the trimmed
`v` with **all** leading and trailing ASCII double quotes removed
(`str::trim_matches('"')`), not just one surrounding pair. -/
theorem parse_value_strips_all_quotes (k v : Str) (hkt : rustTrim k ≠ [])
    (hkc : ',' ∉ k) (hke : '=' ∉ k) (hvc : ',' ∉ v) :
    parseCacheControl [k ++ '=' :: v] =
      [(rustTrim k, some (trimQuotes (rustTrim v)))] :=
  parse_single_value k v hkt hkc hke hvc

/-- Witness for the amended C9 at the doubly-quoted token `a=""b""`. -/
theorem parse_value_strips_all_quotes_witness :
    parseCacheControl ["a".toList ++ '=' :: "\"\"b\"\"".toList] =
      [(rustTrim "a".toList, some (trimQuotes (rustTrim "\"\"b\"\"".toList)))] :=
  parse_value_strips_all_quotes "a".toList "\"\"b\"\"".toList (by decide)
    (by decide) (by decide) (by decide)

end ClaimTheorems

end HttpCacheSemantics
